import Mathlib

/-!
Verification of the BPTT batching / cache-evaluation core of the
`language-model2` notebooks. Definitions are shallow embeddings of the
Python functions `get_batch`, `evaluate_cache`, `evaluate` and `detach`
from `use_pretrained_lm.ipynb` (the `detach`/`evaluate` pair also appears
verbatim in `train_language_model.ipynb`). A token stream is a `List α`
of rows (for `batch_size` lanes each row is one time step across lanes);
indices and lengths are `Nat`, losses and probabilities are `ℝ`.
-/

/-- Shallow embedding of
```
def get_batch(data_source, i, seq_len=None):
    seq_len = min(seq_len if seq_len else bptt, len(data_source) - 1 - i)
    data = data_source[i:i + seq_len]
    target = data_source[i + 1:i + 1 + seq_len]
    return data, target
```
The global `bptt` is passed explicitly. Python truthiness: `None` and `0`
both select `bptt`. Python slice `xs[a : a + n]` is `(xs.drop a).take n`;
for `i ≥ len - 1` the Python value `len - 1 - i` is `≤ 0` and the slices
are empty, matched here by truncated `Nat` subtraction. -/
def get_batch {α : Type} (bptt : ℕ) (data_source : List α) (i : ℕ)
    (seq_len : Option ℕ) : List α × List α :=
  let sl0 : ℕ := match seq_len with
    | none => bptt
    | some s => if s = 0 then bptt else s
  let sl : ℕ := min sl0 (data_source.length - 1 - i)
  ((data_source.drop i).take sl, (data_source.drop (i + 1)).take sl)

theorem get_batch_some_pos {α : Type} (bptt : ℕ) (ds : List α) (i w : ℕ)
    (hw : 1 ≤ w) :
    get_batch bptt ds i (some w) =
      ((ds.drop i).take (min w (ds.length - 1 - i)),
       (ds.drop (i + 1)).take (min w (ds.length - 1 - i))) := by
  have : ¬ w = 0 := by omega
  simp [get_batch, this]

/-- C1: for `0 ≤ i ≤ len - 2` and `w ≥ 1`, both returned slices have
length exactly `min w (len - 1 - i)`; the window never exceeds `w`; for
`i + w < len - 1` it has exactly `w` steps; for `i = len - 2` exactly
one step. -/
theorem get_batch_window_length {α : Type} (bptt : ℕ) (ds : List α)
    (i w : ℕ) (hw : 1 ≤ w) (hi : i + 2 ≤ ds.length) :
    (get_batch bptt ds i (some w)).1.length = min w (ds.length - 1 - i) ∧
    (get_batch bptt ds i (some w)).2.length = min w (ds.length - 1 - i) ∧
    (get_batch bptt ds i (some w)).1.length ≤ w ∧
    (i + w + 1 < ds.length → (get_batch bptt ds i (some w)).1.length = w) ∧
    (i = ds.length - 2 → (get_batch bptt ds i (some w)).1.length = 1) := by
  rw [get_batch_some_pos bptt ds i w hw]
  simp only [List.length_take, List.length_drop]
  omega

/-- Closed instance of `get_batch_window_length`. -/
theorem get_batch_window_length_witness :
    (1 ≤ 2 ∧ 1 + 2 ≤ 5) ∧
    ((get_batch 7 [10, 20, 30, 40, 50] 1 (some 2)).1.length =
        min 2 (([10, 20, 30, 40, 50] : List ℕ).length - 1 - 1) ∧
      (get_batch 7 [10, 20, 30, 40, 50] 1 (some 2)).2.length =
        min 2 (([10, 20, 30, 40, 50] : List ℕ).length - 1 - 1) ∧
      (get_batch 7 [10, 20, 30, 40, 50] 1 (some 2)).1.length ≤ 2 ∧
      (1 + 2 + 1 < ([10, 20, 30, 40, 50] : List ℕ).length →
        (get_batch 7 [10, 20, 30, 40, 50] 1 (some 2)).1.length = 2) ∧
      (1 = ([10, 20, 30, 40, 50] : List ℕ).length - 2 →
        (get_batch 7 [10, 20, 30, 40, 50] 1 (some 2)).1.length = 1)) :=
  ⟨⟨by decide, by decide⟩,
    get_batch_window_length 7 [10, 20, 30, 40, 50] 1 2 (by decide) (by decide)⟩

/-- C2: the target window is the input window shifted one step in the
stream: `target = data_source[i+1 : i+1+w_eff]`, elementwise
`target[t] = data[t+1]` whenever both positions exist, and the last
target element is the stream token immediately following the window's
last input token. -/
theorem get_batch_target_shift {α : Type} (bptt : ℕ) (ds : List α)
    (i w : ℕ) (hw : 1 ≤ w) (hi : i + 2 ≤ ds.length) :
    (get_batch bptt ds i (some w)).2 =
      (ds.drop (i + 1)).take (min w (ds.length - 1 - i)) ∧
    (∀ t, t + 1 < (get_batch bptt ds i (some w)).1.length →
      (get_batch bptt ds i (some w)).2[t]? =
        (get_batch bptt ds i (some w)).1[t + 1]?) ∧
    (get_batch bptt ds i (some w)).2[(get_batch bptt ds i (some w)).2.length - 1]? =
      ds[i + (get_batch bptt ds i (some w)).1.length]? := by
  rw [get_batch_some_pos bptt ds i w hw]
  refine ⟨rfl, ?_, ?_⟩
  · intro t ht
    simp only [List.length_take, List.length_drop] at ht
    simp only [List.getElem?_take, List.getElem?_drop]
    rw [if_pos (by omega), if_pos (by omega)]
    congr 1
    omega
  · simp only [List.length_take, List.length_drop, List.getElem?_take,
      List.getElem?_drop]
    rw [if_pos (by omega)]
    congr 1
    omega

/-- Closed instance of `get_batch_target_shift`. -/
theorem get_batch_target_shift_witness :
    (1 ≤ 2 ∧ 1 + 2 ≤ 5) ∧
    (get_batch 7 [10, 20, 30, 40, 50] 1 (some 2)).2[0]? =
      (get_batch 7 [10, 20, 30, 40, 50] 1 (some 2)).1[0 + 1]? ∧
    (get_batch 7 [10, 20, 30, 40, 50] 1 (some 2)).2[(get_batch 7 [10, 20, 30, 40, 50] 1 (some 2)).2.length - 1]? =
      [10, 20, 30, 40, 50][1 + (get_batch 7 [10, 20, 30, 40, 50] 1 (some 2)).1.length]? :=
  ⟨⟨by decide, by decide⟩,
    (get_batch_target_shift 7 [10, 20, 30, 40, 50] 1 2 (by decide)
      (by decide)).2.1 0 (by decide),
    (get_batch_target_shift 7 [10, 20, 30, 40, 50] 1 2 (by decide)
      (by decide)).2.2⟩

/-- C9: `seq_len=0` is treated by Python truthiness exactly like an
omitted `seq_len`; the window has length `min bptt (len - 1 - i)`, not
zero. -/
theorem get_batch_zero_seq_len {α : Type} (bptt : ℕ) (ds : List α) (i : ℕ) :
    get_batch bptt ds i (some 0) = get_batch bptt ds i none ∧
    (get_batch bptt ds i (some 0)).1.length = min bptt (ds.length - 1 - i) := by
  have h : get_batch bptt ds i (some 0) = get_batch bptt ds i none := by
    simp [get_batch]
  refine ⟨h, ?_⟩
  rw [h]
  simp only [get_batch, List.length_take, List.length_drop]
  omega

/-- C4 counterexample: at the concrete stream `[1, 2, 3]` and cursor
`i = 2 = len - 1`, `get_batch` returns the value `([], [])` instead of
failing with an error. -/
theorem get_batch_out_of_range_returns :
    get_batch 2000 [1, 2, 3] 2 none = (([] : List ℕ), ([] : List ℕ)) := rfl

/-- C4 amended: for every cursor `i ≥ len(data_source) - 1`,
`get_batch` returns an empty window (both `data` and `target` are `[]`)
rather than failing with an `OutOfRange` error. -/
theorem get_batch_out_of_range_empty {α : Type} (bptt : ℕ) (ds : List α)
    (i : ℕ) (w : Option ℕ) (h : ds.length ≤ i + 1) :
    get_batch bptt ds i w = ([], []) := by
  have h0 : ds.length - 1 - i = 0 := by omega
  simp [get_batch, h0]

/-- Closed instance of `get_batch_out_of_range_empty`. -/
theorem get_batch_out_of_range_empty_witness :
    ([5, 6, 9] : List ℕ).length ≤ 5 + 1 ∧
    get_batch 3 [5, 6, 9] 5 (some 4) = (([] : List ℕ), []) :=
  ⟨by decide, get_batch_out_of_range_empty 3 [5, 6, 9] 5 (some 4) (by decide)⟩

/-- Nested recurrent hidden-state value: in the source an opaque tree
built from tuples, lists, and detachable tensor leaves. -/
inductive HiddenTree (τ : Type) : Type where
  | leaf : τ → HiddenTree τ
  | tup : List (HiddenTree τ) → HiddenTree τ
  | lst : List (HiddenTree τ) → HiddenTree τ

mutual

/-- Shallow embedding of
```
def detach(hidden):
    if isinstance(hidden, (tuple, list)):
        hidden = [detach(i) for i in hidden]
    else:
        hidden = hidden.detach()
    return hidden
```
with the external method `.detach()` abstracted as the leaf map `d`.
Both tuple and list nodes are rebuilt as list nodes (a Python list
comprehension always yields a list). -/
def detach {τ : Type} (d : τ → τ) : HiddenTree τ → HiddenTree τ
  | .leaf x => .leaf (d x)
  | .tup xs => .lst (detachL d xs)
  | .lst xs => .lst (detachL d xs)

/-- `detach` mapped over the children of a node. -/
def detachL {τ : Type} (d : τ → τ) : List (HiddenTree τ) → List (HiddenTree τ)
  | [] => []
  | t :: ts => detach d t :: detachL d ts

end

mutual

/-- Left-to-right list of the leaves of a hidden-state tree. -/
def leaves {τ : Type} : HiddenTree τ → List τ
  | .leaf x => [x]
  | .tup xs => leavesL xs
  | .lst xs => leavesL xs

/-- Leaves of a list of trees, concatenated left to right. -/
def leavesL {τ : Type} : List (HiddenTree τ) → List τ
  | [] => []
  | t :: ts => leaves t ++ leavesL ts

end

/-- Pure nesting skeleton of a hidden-state tree: node kind (tuple vs
list) and leaf payloads are forgotten, depth and child counts are
kept. -/
inductive Shape : Type where
  | leaf : Shape
  | node : List Shape → Shape

mutual

/-- The skeleton of a hidden-state tree. -/
def shapeOf {τ : Type} : HiddenTree τ → Shape
  | .leaf _ => .leaf
  | .tup xs => .node (shapeOfL xs)
  | .lst xs => .node (shapeOfL xs)

/-- Skeletons of a list of trees. -/
def shapeOfL {τ : Type} : List (HiddenTree τ) → List Shape
  | [] => []
  | t :: ts => shapeOf t :: shapeOfL ts

end

mutual

/-- `true` iff the tree contains no tuple node. -/
def noTup {τ : Type} : HiddenTree τ → Bool
  | .leaf _ => true
  | .tup _ => false
  | .lst xs => noTupL xs

/-- `noTup` over a list of trees. -/
def noTupL {τ : Type} : List (HiddenTree τ) → Bool
  | [] => true
  | t :: ts => noTup t && noTupL ts

end

mutual

theorem detach_aux {τ : Type} (d : τ → τ) (t : HiddenTree τ) :
    shapeOf (detach d t) = shapeOf t ∧
    leaves (detach d t) = (leaves t).map d ∧
    noTup (detach d t) = true := by
  cases t with
  | leaf x => simp [detach, shapeOf, leaves, noTup]
  | tup xs =>
    have h := detachL_aux d xs
    simp [detach, shapeOf, leaves, noTup, h.1, h.2.1, h.2.2]
  | lst xs =>
    have h := detachL_aux d xs
    simp [detach, shapeOf, leaves, noTup, h.1, h.2.1, h.2.2]

theorem detachL_aux {τ : Type} (d : τ → τ) (ts : List (HiddenTree τ)) :
    shapeOfL (detachL d ts) = shapeOfL ts ∧
    leavesL (detachL d ts) = (leavesL ts).map d ∧
    noTupL (detachL d ts) = true := by
  cases ts with
  | nil => simp [detachL, shapeOfL, leavesL, noTupL]
  | cons t ts =>
    have h1 := detach_aux d t
    have h2 := detachL_aux d ts
    simp [detachL, shapeOfL, leavesL, noTupL, h1.1, h1.2.1, h1.2.2,
      h2.1, h2.2.1, h2.2.2]

end

/-- C10: `detach` preserves the nesting skeleton (depth and child count
at every level), maps the leaf operation over the leaves in
left-to-right order applying it exactly once per leaf, and produces a
tree in which every interior node is a list node (tuples become
lists). -/
theorem detach_preserves_structure {τ : Type} (d : τ → τ) (t : HiddenTree τ) :
    shapeOf (detach d t) = shapeOf t ∧
    leaves (detach d t) = (leaves t).map d ∧
    noTup (detach d t) = true :=
  detach_aux d t

/-- External sequence model as consumed by `evaluate_cache`:
`model(data, target, next_word_history, cache_history, hidden)` returns
`(outs, next_word_history, cache_history, hidden)`, plus
`model.begin_state(batch_size)` and the per-leaf `.detach()` method. -/
structure CModel (α N C τ : Type) : Type where
  begin_state : ℕ → HiddenTree τ
  forward : List α → List α → Option N → Option C → HiddenTree τ →
    List ℝ × N × C × HiddenTree τ
  leafDetach : τ → τ

/-- Mutable locals of the `evaluate_cache` loop: running loss,
next-word history, cache history (both `None` before the first chunk),
and the recurrent hidden state. -/
structure CacheLoopState (N C τ : Type) : Type where
  total_L : ℝ
  nwh : Option N
  ch : Option C
  hidden : HiddenTree τ

/-- One iteration of the `evaluate_cache` loop body at cursor `i`:
`data, target = get_batch(data_source, i)`, one forward call,
`L = sum(-log(out) for out in outs)`, `total_L += L / data.shape[1]`
(the batch width, passed as `bs`), histories updated to the returned
values, `hidden = detach(hidden)`. -/
noncomputable def cacheStep {α N C τ : Type} (bptt bs : ℕ)
    (model : CModel α N C τ) (ds : List α) (i : ℕ)
    (st : CacheLoopState N C τ) : CacheLoopState N C τ :=
  let p := get_batch bptt ds i none
  let r := model.forward p.1 p.2 st.nwh st.ch st.hidden
  let L : ℝ := (r.1.map fun o => -Real.log o).sum
  ⟨st.total_L + L / (bs : ℝ), some r.2.1, some r.2.2.1,
    detach model.leafDetach r.2.2.2⟩

/-- The `for i in range(0, len(data_source) - 1, bptt)` loop of
`evaluate_cache`, over the explicit list of cursor values. The test
`if i == bptt: return total_L / i` is the early return (`Sum.inl`);
falling off the loop yields the final state (`Sum.inr`). -/
noncomputable def cacheLoop {α N C τ : Type} (bptt bs : ℕ)
    (model : CModel α N C τ) (ds : List α) :
    List ℕ → CacheLoopState N C τ → ℝ ⊕ CacheLoopState N C τ
  | [], st => .inr st
  | i :: rest, st =>
    if i = bptt then .inl (st.total_L / (i : ℝ))
    else cacheLoop bptt bs model ds rest (cacheStep bptt bs model ds i st)

/-- Shallow embedding of
```
def evaluate_cache(model, data_source, batch_size, ctx):
    total_L = 0.0
    hidden = model.begin_state(batch_size=batch_size, func=mx.nd.zeros, ctx=ctx)
    next_word_history = None
    cache_history = None
    for i in range(0, len(data_source) - 1, bptt):
        if i > 0:
            print('Batch %d, ppl %f' % (i, math.exp(total_L / i)))
        if i == bptt:
            return total_L / i
        data, target = get_batch(data_source, i)
        ...
        total_L += L / data.shape[1]
        hidden = detach(hidden)
    return total_L / len(data_source)
```
`range(0, M, step)` has `(M + step - 1) / step` elements (for `step ≥ 1`),
embedded with `List.range'`; the `print` is output-only and dropped. -/
noncomputable def evaluate_cache {α N C τ : Type} (bptt bs : ℕ)
    (model : CModel α N C τ) (ds : List α) : ℝ :=
  match cacheLoop bptt bs model ds
      (List.range' 0 ((ds.length - 1 + bptt - 1) / bptt) bptt)
      ⟨0, none, none, model.begin_state bs⟩ with
  | .inl r => r
  | .inr st => st.total_L / (ds.length : ℝ)

theorem cacheLoop_nil {α N C τ : Type} (bptt bs : ℕ) (model : CModel α N C τ)
    (ds : List α) (st : CacheLoopState N C τ) :
    cacheLoop bptt bs model ds [] st = .inr st := rfl

theorem cacheLoop_cons {α N C τ : Type} (bptt bs : ℕ) (model : CModel α N C τ)
    (ds : List α) (i : ℕ) (rest : List ℕ) (st : CacheLoopState N C τ) :
    cacheLoop bptt bs model ds (i :: rest) st =
      if i = bptt then .inl (st.total_L / (i : ℝ))
      else cacheLoop bptt bs model ds rest (cacheStep bptt bs model ds i st) := by
  rw [cacheLoop]

/-- C3: when `len(data_source) > bptt + 1`, `evaluate_cache` processes
exactly one window — of exactly `bptt` steps — and then hits the
implicit `if i == bptt: return total_L / i` short-circuit, so the
returned loss is the first window's loss divided by `bptt` and no later
token contributes. -/
theorem evaluate_cache_short_circuit {α N C τ : Type} (bptt bs : ℕ)
    (model : CModel α N C τ) (ds : List α)
    (h1 : 1 ≤ bptt) (h2 : bptt + 1 < ds.length) :
    (get_batch bptt ds 0 none).1.length = bptt ∧
    evaluate_cache bptt bs model ds =
      (((model.forward (get_batch bptt ds 0 none).1 (get_batch bptt ds 0 none).2
          none none (model.begin_state bs)).1.map fun o => -Real.log o).sum
        / (bs : ℝ)) / (bptt : ℝ) := by
  constructor
  · simp only [get_batch, List.length_take, List.length_drop]
    omega
  · have hn : (ds.length - 1 + bptt - 1) / bptt =
        (ds.length - 1 + bptt - 1) / bptt - 2 + 2 := by
      have h2le : 2 ≤ (ds.length - 1 + bptt - 1) / bptt := by
        rw [Nat.le_div_iff_mul_le (by omega)]
        omega
      omega
    unfold evaluate_cache
    rw [hn, List.range'_succ, List.range'_succ]
    rw [cacheLoop_cons, if_neg (by omega)]
    rw [show 0 + bptt = bptt by omega]
    rw [cacheLoop_cons, if_pos rfl]
    simp only [cacheStep, zero_add]

/-- A concrete deterministic model for closed instances: the blended
probability of every target position is `1/2` and the hidden state is
returned unchanged. -/
noncomputable def constModel : CModel ℕ Unit Unit Unit :=
  ⟨fun _ => .lst [],
   fun _ target _ _ h => (target.map fun _ => (1 / 2 : ℝ), (), (), h),
   fun x => x⟩

/-- Closed instance of `evaluate_cache_short_circuit`. -/
theorem evaluate_cache_short_circuit_witness :
    (1 ≤ 1 ∧ 1 + 1 < ([0, 1, 2, 3] : List ℕ).length) ∧
    (get_batch 1 [0, 1, 2, 3] 0 none).1.length = 1 ∧
    evaluate_cache 1 1 constModel [0, 1, 2, 3] =
      (((constModel.forward (get_batch 1 [0, 1, 2, 3] 0 none).1
          (get_batch 1 [0, 1, 2, 3] 0 none).2 none none
          (constModel.begin_state 1)).1.map fun o => -Real.log o).sum
        / ((1 : ℕ) : ℝ)) / ((1 : ℕ) : ℝ) :=
  ⟨⟨by decide, by decide⟩,
    evaluate_cache_short_circuit 1 1 constModel [0, 1, 2, 3] (by decide) (by decide)⟩

/-- C6: under the invariant that every blended probability emitted by
the model lies in `(0, 1)`, the per-chunk sum of negative log blended
probabilities is non-negative, so one loop iteration never decreases
`total_L`, and across any error-free run of the loop the final
`total_L` is at least the initial one. -/
theorem evaluate_cache_loss_monotone {α N C τ : Type} (bptt bs : ℕ)
    (model : CModel α N C τ) (ds : List α)
    (hout : ∀ data target nwh ch h,
      ∀ o ∈ (model.forward data target nwh ch h).1, 0 < o ∧ o < 1)
    (i : ℕ) (st : CacheLoopState N C τ) (indices : List ℕ)
    (st' : CacheLoopState N C τ)
    (hrun : cacheLoop bptt bs model ds indices st = .inr st') :
    0 ≤ (((model.forward (get_batch bptt ds i none).1
        (get_batch bptt ds i none).2 st.nwh st.ch st.hidden).1.map
          fun o => -Real.log o).sum) ∧
    st.total_L ≤ (cacheStep bptt bs model ds i st).total_L ∧
    st.total_L ≤ st'.total_L := by
  have hsum : ∀ (outs : List ℝ), (∀ o ∈ outs, 0 < o ∧ o < 1) →
      0 ≤ (outs.map fun o => -Real.log o).sum := by
    intro outs h
    apply List.sum_nonneg
    intro x hx
    simp only [List.mem_map] at hx
    obtain ⟨o, ho, rfl⟩ := hx
    have h1 := h o ho
    have hlog := Real.log_neg h1.1 h1.2
    linarith
  have hstep : ∀ (j : ℕ) (s : CacheLoopState N C τ),
      s.total_L ≤ (cacheStep bptt bs model ds j s).total_L := by
    intro j s
    simp only [cacheStep]
    have hL := hsum _ (hout (get_batch bptt ds j none).1
      (get_batch bptt ds j none).2 s.nwh s.ch s.hidden)
    have hb : (0 : ℝ) ≤ (bs : ℝ) := Nat.cast_nonneg bs
    have := div_nonneg hL hb
    linarith
  refine ⟨hsum _ (hout _ _ _ _ _), hstep i st, ?_⟩
  have hloop : ∀ (l : List ℕ) (s s' : CacheLoopState N C τ),
      cacheLoop bptt bs model ds l s = .inr s' → s.total_L ≤ s'.total_L := by
    intro l
    induction l with
    | nil =>
      intro s s' h
      rw [cacheLoop_nil] at h
      cases h
      exact le_refl _
    | cons j rest ih =>
      intro s s' h
      rw [cacheLoop_cons] at h
      by_cases hj : j = bptt
      · rw [if_pos hj] at h
        simp at h
      · rw [if_neg hj] at h
        exact le_trans (hstep j s) (ih _ _ h)
  exact hloop indices st st' hrun

/-- Closed instance of `evaluate_cache_loss_monotone`. -/
theorem evaluate_cache_loss_monotone_witness :
    (∀ data target nwh ch h,
      ∀ o ∈ (constModel.forward data target nwh ch h).1, 0 < o ∧ o < 1) ∧
    cacheLoop 1 1 constModel [0, 1, 2, 3] []
      (⟨0, none, none, .lst []⟩ : CacheLoopState Unit Unit Unit) =
      .inr ⟨0, none, none, .lst []⟩ ∧
    (0 ≤ (((constModel.forward (get_batch 1 [0, 1, 2, 3] 0 none).1
        (get_batch 1 [0, 1, 2, 3] 0 none).2
        (⟨0, none, none, .lst []⟩ : CacheLoopState Unit Unit Unit).nwh
        (⟨0, none, none, .lst []⟩ : CacheLoopState Unit Unit Unit).ch
        (⟨0, none, none, .lst []⟩ : CacheLoopState Unit Unit Unit).hidden).1.map
          fun o => -Real.log o).sum) ∧
      (⟨0, none, none, .lst []⟩ : CacheLoopState Unit Unit Unit).total_L ≤
        (cacheStep 1 1 constModel [0, 1, 2, 3] 0 ⟨0, none, none, .lst []⟩).total_L ∧
      (⟨0, none, none, .lst []⟩ : CacheLoopState Unit Unit Unit).total_L ≤
        (⟨0, none, none, .lst []⟩ : CacheLoopState Unit Unit Unit).total_L) :=
  have hout : ∀ data target nwh ch h,
      ∀ o ∈ (constModel.forward data target nwh ch h).1, 0 < o ∧ o < 1 := by
    intro data target nwh ch h o ho
    simp only [constModel, List.mem_map] at ho
    obtain ⟨x, hx, rfl⟩ := ho
    norm_num
  ⟨hout, rfl,
    evaluate_cache_loss_monotone 1 1 constModel [0, 1, 2, 3] hout 0
      ⟨0, none, none, .lst []⟩ [] ⟨0, none, none, .lst []⟩ rfl⟩

/-- Variant of the `evaluate_cache` loop that also records the flat
left-to-right sequence of blended probabilities `out` consumed by the
inner `for out in outs` loop. -/
noncomputable def cacheLoopT {α N C τ : Type} (bptt bs : ℕ)
    (model : CModel α N C τ) (ds : List α) :
    List ℕ → CacheLoopState N C τ → List ℝ →
      (ℝ × List ℝ) ⊕ (CacheLoopState N C τ × List ℝ)
  | [], st, tr => .inr (st, tr)
  | i :: rest, st, tr =>
    if i = bptt then .inl (st.total_L / (i : ℝ), tr)
    else
      cacheLoopT bptt bs model ds rest (cacheStep bptt bs model ds i st)
        (tr ++ (model.forward (get_batch bptt ds i none).1
          (get_batch bptt ds i none).2 st.nwh st.ch st.hidden).1)

/-- `evaluate_cache` together with the sequence of blended
probabilities it consumed. -/
noncomputable def evaluate_cache_trace {α N C τ : Type} (bptt bs : ℕ)
    (model : CModel α N C τ) (ds : List α) : ℝ × List ℝ :=
  match cacheLoopT bptt bs model ds
      (List.range' 0 ((ds.length - 1 + bptt - 1) / bptt) bptt)
      ⟨0, none, none, model.begin_state bs⟩ [] with
  | .inl p => p
  | .inr p => (p.1.total_L / (ds.length : ℝ), p.2)

/-- C7: `evaluate_cache` is deterministic: it is a pure function of the
model and the data source — two runs against extensionally equal
deterministic models (same `forward`, same `begin_state`, same leaf
detach) from the fresh `None` histories return the same total loss and
the identical sequence of blended probabilities; no randomness enters. -/
theorem evaluate_cache_deterministic {α N C τ : Type} (bptt bs : ℕ)
    (m₁ m₂ : CModel α N C τ) (ds : List α)
    (hf : ∀ d t nwh ch h, m₁.forward d t nwh ch h = m₂.forward d t nwh ch h)
    (hb : ∀ n, m₁.begin_state n = m₂.begin_state n)
    (hd : ∀ x, m₁.leafDetach x = m₂.leafDetach x) :
    evaluate_cache_trace bptt bs m₁ ds = evaluate_cache_trace bptt bs m₂ ds ∧
    evaluate_cache bptt bs m₁ ds = evaluate_cache bptt bs m₂ ds := by
  obtain ⟨b₁, f₁, d₁⟩ := m₁
  obtain ⟨b₂, f₂, d₂⟩ := m₂
  have hb' : b₁ = b₂ := funext hb
  have hf' : f₁ = f₂ := by
    funext a b c d e
    exact hf a b c d e
  have hd' : d₁ = d₂ := funext hd
  subst hb' hf' hd'
  exact ⟨rfl, rfl⟩

/-- Closed instance of `evaluate_cache_deterministic`. -/
theorem evaluate_cache_deterministic_witness :
    (∀ d t nwh ch h, constModel.forward d t nwh ch h =
      constModel.forward d t nwh ch h) ∧
    (∀ n, constModel.begin_state n = constModel.begin_state n) ∧
    (∀ x, constModel.leafDetach x = constModel.leafDetach x) ∧
    (evaluate_cache_trace 2 1 constModel [0, 1, 2] =
        evaluate_cache_trace 2 1 constModel [0, 1, 2] ∧
      evaluate_cache 2 1 constModel [0, 1, 2] =
        evaluate_cache 2 1 constModel [0, 1, 2]) :=
  ⟨fun _ _ _ _ _ => rfl, fun _ => rfl, fun _ => rfl,
    evaluate_cache_deterministic 2 1 constModel constModel [0, 1, 2]
      (fun _ _ _ _ _ => rfl) (fun _ => rfl) (fun _ => rfl)⟩

/-- External model as consumed by `evaluate_cache`, with a fallible
forward call: Python raises are modelled by `Except`. -/
structure CModelE (α N C τ ε : Type) : Type where
  begin_state : ℕ → HiddenTree τ
  forward : List α → List α → Option N → Option C → HiddenTree τ →
    Except ε (List ℝ × N × C × HiddenTree τ)
  leafDetach : τ → τ

/-- The `evaluate_cache` loop over a fallible model. The Python body has
no `try`/`except`, so a raise in the forward call aborts the loop and
the exception is re-raised unchanged (`Except.error`). -/
noncomputable def cacheLoopE {α N C τ ε : Type} (bptt bs : ℕ)
    (model : CModelE α N C τ ε) (ds : List α) :
    List ℕ → CacheLoopState N C τ → Except ε (ℝ ⊕ CacheLoopState N C τ)
  | [], st => .ok (.inr st)
  | i :: rest, st =>
    if i = bptt then .ok (.inl (st.total_L / (i : ℝ)))
    else
      match model.forward (get_batch bptt ds i none).1
          (get_batch bptt ds i none).2 st.nwh st.ch st.hidden with
      | .error e => .error e
      | .ok r =>
        cacheLoopE bptt bs model ds rest
          ⟨st.total_L + ((r.1.map fun o => -Real.log o).sum) / (bs : ℝ),
            some r.2.1, some r.2.2.1, detach model.leafDetach r.2.2.2⟩

/-- `evaluate_cache` over a fallible model. -/
noncomputable def evaluate_cacheE {α N C τ ε : Type} (bptt bs : ℕ)
    (model : CModelE α N C τ ε) (ds : List α) : Except ε ℝ :=
  match cacheLoopE bptt bs model ds
      (List.range' 0 ((ds.length - 1 + bptt - 1) / bptt) bptt)
      ⟨0, none, none, model.begin_state bs⟩ with
  | .error e => .error e
  | .ok (.inl r) => .ok r
  | .ok (.inr st) => .ok (st.total_L / (ds.length : ℝ))

/-- External model as consumed by `evaluate` (both notebooks): a
fallible `forward(data, hidden)` returning `(output, hidden)`, plus
`begin_state` and the per-leaf `.detach()`. -/
structure EModel (χ Out τ ε : Type) : Type where
  begin_state : ℕ → HiddenTree τ
  forward : χ → HiddenTree τ → Except ε (Out × HiddenTree τ)
  leafDetach : τ → τ

/-- The `for i, (data, target) in enumerate(data_source)` loop of
`evaluate`: `L = loss(output, target)`, `total_L += sum(L)`,
`ntotal += L.size`, `hidden = detach(hidden)`; a raise in the forward
call aborts the loop. -/
noncomputable def evalLoopE {χ Out τ ε : Type} (model : EModel χ Out τ ε)
    (lossf : Out → χ → List ℝ) :
    List (χ × χ) → ℝ → ℕ → HiddenTree τ → Except ε (ℝ × ℕ)
  | [], tL, nt, _ => .ok (tL, nt)
  | c :: rest, tL, nt, h =>
    match model.forward c.1 h with
    | .error e => .error e
    | .ok r =>
      evalLoopE model lossf rest (tL + (lossf r.1 c.2).sum)
        (nt + (lossf r.1 c.2).length) (detach model.leafDetach r.2)

/-- Shallow embedding of
```
def evaluate(model, data_source, batch_size, ctx):
    total_L = 0.0
    ntotal = 0
    hidden = model.begin_state(batch_size=batch_size, func=mx.nd.zeros, ctx=ctx)
    for i, (data, target) in enumerate(data_source):
        output, hidden = model(data, hidden)
        hidden = detach(hidden)
        L = loss(output.reshape(-3, -1), target.reshape(-1))
        total_L += mx.nd.sum(L).asscalar()
        ntotal += L.size
    return total_L / ntotal
```
over a fallible model; `data_source` is the stream of
`(data, target)` chunk pairs. -/
noncomputable def evaluateE {χ Out τ ε : Type} (model : EModel χ Out τ ε)
    (lossf : Out → χ → List ℝ) (chunks : List (χ × χ)) (bs : ℕ) :
    Except ε ℝ :=
  match evalLoopE model lossf chunks 0 0 (model.begin_state bs) with
  | .error e => .error e
  | .ok p => .ok (p.1 / (p.2 : ℝ))

theorem cacheLoopE_error_source {α N C τ ε : Type} (bptt bs : ℕ)
    (model : CModelE α N C τ ε) (ds : List α) :
    ∀ (indices : List ℕ) (st : CacheLoopState N C τ) (e' : ε),
      cacheLoopE bptt bs model ds indices st = .error e' →
      ∃ data target nwh ch h, model.forward data target nwh ch h = .error e' := by
  intro indices
  induction indices with
  | nil =>
    intro st e' h
    rw [cacheLoopE] at h
    simp at h
  | cons i rest ih =>
    intro st e' h
    rw [cacheLoopE] at h
    by_cases hi : i = bptt
    · rw [if_pos hi] at h
      simp at h
    · rw [if_neg hi] at h
      cases hf : model.forward (get_batch bptt ds i none).1
          (get_batch bptt ds i none).2 st.nwh st.ch st.hidden with
      | error e2 =>
        rw [hf] at h
        simp only [] at h
        cases h
        exact ⟨_, _, _, _, _, hf⟩
      | ok r =>
        rw [hf] at h
        exact ih _ _ h

theorem evalLoopE_error_source {χ Out τ ε : Type} (model : EModel χ Out τ ε)
    (lossf : Out → χ → List ℝ) :
    ∀ (chunks : List (χ × χ)) (tL : ℝ) (nt : ℕ) (h0 : HiddenTree τ) (e' : ε),
      evalLoopE model lossf chunks tL nt h0 = .error e' →
      ∃ c h, model.forward c h = .error e' := by
  intro chunks
  induction chunks with
  | nil =>
    intro tL nt h0 e' h
    rw [evalLoopE] at h
    simp at h
  | cons c rest ih =>
    intro tL nt h0 e' h
    rw [evalLoopE] at h
    cases hf : model.forward c.1 h0 with
    | error e2 =>
      rw [hf] at h
      simp only [] at h
      cases h
      exact ⟨_, _, hf⟩
    | ok r =>
      rw [hf] at h
      exact ih _ _ _ _ h

/-- C8: the evaluation loops intercept no model failure. If the forward
call fails, `evaluate_cache` and `evaluate` return no loss value: a model
whose forward call always raises `e` makes both loops return exactly
`.error e`; and conversely any error either loop returns is exactly an
error produced by some forward call, propagated unchanged. -/
theorem model_error_propagates {α N C τ ε χ Out : Type}
    (bptt bs : ℕ) (mc mc' : CModelE α N C τ ε) (ds ds' : List α)
    (me me' : EModel χ Out τ ε) (lossf : Out → χ → List ℝ)
    (chunks chunks' : List (χ × χ)) (e e' e'' : ε)
    (hmc : ∀ data target nwh ch h, mc.forward data target nwh ch h = .error e)
    (hme : ∀ c h, me.forward c h = .error e)
    (hbptt : 1 ≤ bptt) (hds : 2 ≤ ds.length) (hchunks : chunks ≠ [])
    (hrun : evaluate_cacheE bptt bs mc' ds' = .error e')
    (hrun2 : evaluateE me' lossf chunks' bs = .error e'') :
    evaluate_cacheE bptt bs mc ds = .error e ∧
    evaluateE me lossf chunks bs = .error e ∧
    (∃ data target nwh ch h, mc'.forward data target nwh ch h = .error e') ∧
    (∃ c h, me'.forward c h = .error e'') := by
  refine ⟨?_, ?_, ?_, ?_⟩
  · have hloop : cacheLoopE bptt bs mc ds
        (List.range' 0 ((ds.length - 1 + bptt - 1) / bptt) bptt)
        ⟨0, none, none, mc.begin_state bs⟩ = .error e := by
      have hn : (ds.length - 1 + bptt - 1) / bptt =
          (ds.length - 1 + bptt - 1) / bptt - 1 + 1 := by
        have h1 : 1 ≤ (ds.length - 1 + bptt - 1) / bptt := by
          rw [Nat.le_div_iff_mul_le (by omega)]
          omega
        omega
      rw [hn, List.range'_succ, cacheLoopE, if_neg (by omega), hmc]
    unfold evaluate_cacheE
    rw [hloop]
  · obtain ⟨c, rest, rfl⟩ : ∃ c rest, chunks = c :: rest := by
      cases chunks with
      | nil => exact absurd rfl hchunks
      | cons c rest => exact ⟨c, rest, rfl⟩
    unfold evaluateE
    rw [evalLoopE, hme]
  · unfold evaluate_cacheE at hrun
    cases hcl : cacheLoopE bptt bs mc' ds'
        (List.range' 0 ((ds'.length - 1 + bptt - 1) / bptt) bptt)
        ⟨0, none, none, mc'.begin_state bs⟩ with
    | error e2 =>
      rw [hcl] at hrun
      simp only [] at hrun
      cases hrun
      exact cacheLoopE_error_source bptt bs mc' ds' _ _ _ hcl
    | ok v =>
      rw [hcl] at hrun
      cases v with
      | inl r => simp at hrun
      | inr st => simp at hrun
  · unfold evaluateE at hrun2
    cases hcl : evalLoopE me' lossf chunks' 0 0 (me'.begin_state bs) with
    | error e2 =>
      rw [hcl] at hrun2
      simp only [] at hrun2
      cases hrun2
      exact evalLoopE_error_source me' lossf _ _ _ _ _ hcl
    | ok p =>
      rw [hcl] at hrun2
      simp at hrun2

/-- A model for `evaluate_cache` whose forward call always fails with
error code `7`. -/
def failCModel : CModelE ℕ Unit Unit Unit ℕ :=
  ⟨fun _ => .lst [], fun _ _ _ _ _ => .error 7, fun x => x⟩

/-- A model for `evaluate` whose forward call always fails with error
code `7`. -/
def failEModel : EModel (List ℕ) Unit Unit ℕ :=
  ⟨fun _ => .lst [], fun _ _ => .error 7, fun x => x⟩

/-- Closed instance of `model_error_propagates`. -/
theorem model_error_propagates_witness :
    (∀ data target nwh ch h,
      failCModel.forward data target nwh ch h = .error 7) ∧
    (∀ c h, failEModel.forward c h = .error 7) ∧
    1 ≤ 1 ∧ 2 ≤ ([0, 1] : List ℕ).length ∧
    ([([1], [2])] : List (List ℕ × List ℕ)) ≠ [] ∧
    evaluate_cacheE 1 1 failCModel [0, 1] = .error 7 ∧
    evaluateE failEModel (fun _ _ => []) [([1], [2])] 1 = .error 7 ∧
    (evaluate_cacheE 1 1 failCModel [0, 1] = .error 7 ∧
      evaluateE failEModel (fun _ _ => []) [([1], [2])] 1 = .error 7 ∧
      (∃ data target nwh ch h,
        failCModel.forward data target nwh ch h = .error 7) ∧
      (∃ c h, failEModel.forward c h = .error 7)) :=
  have hrun : evaluate_cacheE 1 1 failCModel [0, 1] = .error 7 := rfl
  have hrun2 : evaluateE failEModel (fun _ _ => []) [([1], [2])] 1 = .error 7 := rfl
  ⟨fun _ _ _ _ _ => rfl, fun _ _ => rfl, le_refl 1, by decide, by decide,
    hrun, hrun2,
    model_error_propagates 1 1 failCModel failCModel [0, 1] [0, 1]
      failEModel failEModel (fun _ _ => []) [([1], [2])] [([1], [2])] 7 7 7
      (fun _ _ _ _ _ => rfl) (fun _ _ => rfl) (le_refl 1) (by decide)
      (by decide) hrun hrun2⟩

/-- Modelled from the spec: dot product of two hidden-state vectors,
used by the similarity kernel of the cache scorer. -/
noncomputable def dotR (a b : List ℝ) : ℝ :=
  (List.zipWith (fun x y => x * y) a b).sum

/-- Modelled from the spec: the similarity scores
`exp(theta * dot(h_t, h_i))` over the most recent `window` entries
`(h_i, tok_i)` of the cache history (most recent entries at the tail),
each paired with its entry's observed token. The cache-blending code
itself lives in the external library's `CacheCell` and is not among
this repository's sources. -/
noncomputable def cacheScores (theta : ℝ) (window : ℕ)
    (history : List (List ℝ × ℕ)) (h_t : List ℝ) : List (ℝ × ℕ) :=
  (history.drop (history.length - window)).map
    (fun en => (Real.exp (theta * dotR h_t en.1), en.2))

/-- Modelled from the spec: the cache distribution — the normalized
similarity mass of the entries whose observed token equals `y`. -/
noncomputable def p_cache (theta : ℝ) (window : ℕ)
    (history : List (List ℝ × ℕ)) (h_t : List ℝ) (y : ℕ) : ℝ :=
  (((cacheScores theta window history h_t).filter
      (fun en => en.2 == y)).map Prod.fst).sum /
    ((cacheScores theta window history h_t).map Prod.fst).sum

/-- Modelled from the spec: the blended probability
`p_blend(y) = (1 - lambda_mix) * p_model(y) + lambda_mix * p_cache(y)`. -/
noncomputable def p_blend (theta : ℝ) (window : ℕ) (lambda_mix : ℝ)
    (history : List (List ℝ × ℕ)) (h_t : List ℝ) (p_model : ℕ → ℝ)
    (y : ℕ) : ℝ :=
  (1 - lambda_mix) * p_model y + lambda_mix * p_cache theta window history h_t y

/-- C5: with an empty cache history (the state at the start of an
evaluation pass, where both histories are `None`), the cache
distribution contributes zero mass and the blended probability of every
token reduces to `(1 - lambda_mix) * p_model(y)`; no division by zero
occurs (the degenerate quotient is the zero mass itself). -/
theorem p_blend_empty_history (theta : ℝ) (window : ℕ) (lambda_mix : ℝ)
    (h_t : List ℝ) (p_model : ℕ → ℝ) (y : ℕ) :
    p_cache theta window [] h_t y = 0 ∧
    p_blend theta window lambda_mix [] h_t p_model y =
      (1 - lambda_mix) * p_model y := by
  have hc : p_cache theta window [] h_t y = 0 := by
    simp [p_cache, cacheScores]
  refine ⟨hc, ?_⟩
  simp [p_blend, hc]
